import Mathlib

/-!
Verification development for the Discord-FAQ-Bot repository
(src/message_management.py). The channel of an external chat platform is
modelled as a list of messages, oldest first. Messages carry an immutable
id and author together with mutable content, attachments (modelled by
their byte content) and embeds. The emoji filters (emojify, deemojify)
live in a module that is not part of the analysed sources, so they are
taken as function parameters throughout.
-/

namespace FaqBot

/-- An embed of a message: optional title and a description. -/
structure Embed where
  title : Option String
  description : String
deriving DecidableEq, Repr

/-- One record of the channel log: immutable id and author id, mutable
content, attachments (each given by its byte content) and embeds. -/
structure Msg where
  id : Nat
  author : Nat
  content : String
  attachments : List String
  embeds : List Embed
deriving DecidableEq, Repr

/-- Messages of the channel authored by the automation identity, oldest
first. -/
def botMsgs (bot : Nat) (ch : List Msg) : List Msg :=
  ch.filter fun m => m.author == bot

/-- Contents of the automation-owned messages, oldest first. -/
def botContents (bot : Nat) (ch : List Msg) : List String :=
  (botMsgs bot ch).map Msg.content

/-- The channel primitive chn.fetch_message(mid): the message with the
given id. -/
def fetchMsg (ch : List Msg) (mid : Nat) : Option Msg :=
  ch.find? fun m => m.id == mid

/-- The channel primitive msg.edit(content=..., attachments=[], files=...,
embeds=...): replace content, attachments and embeds of the message with
the given id (prior attachments are cleared and the given ones attached). -/
def editMsg (ch : List Msg) (mid : Nat) (c : String) (att : List String)
    (em : List Embed) : List Msg :=
  ch.map fun m =>
    if m.id = mid then { m with content := c, attachments := att, embeds := em } else m

/-- Copy the mutable state (content, attachments, embeds) of src onto dst,
keeping the identity of dst. -/
def copyState (dst src : Msg) : Msg :=
  { dst with
      content := src.content
      attachments := src.attachments
      embeds := src.embeds }

/-- The id-collection loop of insert_message: walk the given messages
(the code iterates ctx.channel.history(), newest first), keep ids whose
author is the bot, and stop right after appending the target id. -/
def collectBotIds (bot tid : Nat) : List Msg → List Nat
  | [] => []
  | m :: rest =>
    if m.author = bot then
      if m.id = tid then [m.id]
      else m.id :: collectBotIds bot tid rest
    else collectBotIds bot tid rest

/-- The shift loop of insert_message: for each adjacent pair of collected
ids, fetch both messages (the code gathers the two fetches of one pair as
one unit of work) and overwrite the first with the content, attachments
and embeds of the second, then continue with the next pair. A failing
fetch aborts the loop, as the raised platform error would. -/
def shiftLoop (ch : List Msg) : List Nat → Option (List Msg)
  | a :: b :: rest =>
    match fetchMsg ch a, fetchMsg ch b with
    | some _, some nxt =>
        shiftLoop (editMsg ch a nxt.content nxt.attachments nxt.embeds) (b :: rest)
    | _, _ => none
  | _ => some ch

/-- The closing edit of insert_message:
message.edit(content="**[PH]**", suppress=True, embeds=[]) on the target,
leaving its attachments in place. -/
def finalTargetEdit (ch : List Msg) (tid : Nat) : List Msg :=
  ch.map fun m =>
    if m.id = tid then { m with content := "**[PH]**", embeds := [] } else m

/-- The empty placeholder message sent by ctx.channel.send("*** ***") at
the start of insert_message; freshId is the id the platform assigns. -/
def placeholderMsg (bot freshId : Nat) : Msg :=
  { id := freshId, author := bot, content := "*** ***", attachments := [],
    embeds := [] }

/-- The insert_message command: send an empty placeholder at the end of
the channel, collect bot-authored ids from the newest message down to the
target, shift each pair of adjacent collected messages, then overwrite the
target with the literal placeholder content. -/
def insert_message (bot freshId : Nat) (ch : List Msg) (tid : Nat) :
    Option (List Msg) :=
  let ch1 := ch ++ [placeholderMsg bot freshId]
  let ids := collectBotIds bot tid ch1.reverse
  match shiftLoop ch1 ids with
  | some ch2 => some (finalTargetEdit ch2 tid)
  | none => none

/-- The ordered list of shift edits insert_message performs, as pairs
(destination id, source id): adjacent pairs of the collected id list, in
the order the loop processes them. -/
def insert_trace (bot freshId : Nat) (ch : List Msg) (tid : Nat) :
    List (Nat × Nat) :=
  let ids := collectBotIds bot tid (ch ++ [placeholderMsg bot freshId]).reverse
  ids.zip ids.tail

/-- One shift edit expressed over a pair of ids: fetch both, overwrite the
first with the state of the second. -/
def applyPair (ch : List Msg) (p : Nat × Nat) : Option (List Msg) :=
  match fetchMsg ch p.1, fetchMsg ch p.2 with
  | some _, some nxt => some (editMsg ch p.1 nxt.content nxt.attachments nxt.embeds)
  | _, _ => none

/-- The pair list prescribed by the specification sentence of claim C2:
order the collected ids oldest to newest and pair each position with its
successor, the first component being overwritten by the second. -/
def claimPairList (idsOldestFirst : List Nat) : List (Nat × Nat) :=
  idsOldestFirst.zip idsOldestFirst.tail

/-- A user of the chat platform, as needed by dump_messages. -/
structure User where
  id : Nat
  name : String
deriving DecidableEq, Repr

/-- A Python attribute access user.name: on None it raises
AttributeError. -/
def userNameAttr : Option User → Except String String
  | none => Except.error "AttributeError"
  | some u => Except.ok u.name

/-- Observable actions of the dump_messages command. -/
inductive DumpAction where
  | respond : String → DumpAction
  | dmSend : Nat → String → DumpAction
deriving DecidableEq, Repr

/-- The dump_messages command: look the user id up with bot.get_user; the
rejection branch formats user.name of the absent user inside its own
message before responding; otherwise respond and forward every channel
message, oldest first, to the user as a code block through the deemojify
filter. -/
def dump_messages (users : Nat → Option User) (deemojify : String → String)
    (uid : Nat) (history : List Msg) : Except String (List DumpAction) :=
  match users uid with
  | none =>
    match userNameAttr none with
    | Except.error e => Except.error e
    | Except.ok n => Except.ok [DumpAction.respond ("Bad user name " ++ n)]
  | some u =>
    Except.ok (DumpAction.respond ("Sending the messages to " ++ u.name)
      :: history.map fun m =>
        DumpAction.dmSend u.id ("```" ++ deemojify m.content ++ "```"))

/-- One entry of the JSON document save_messages writes: the header object
(channel name and id) or one record object (content, image paths, embed
descriptions). -/
inductive SaveEntry where
  | header : String → Nat → SaveEntry
  | record : String → List String → List String → SaveEntry
deriving DecidableEq, Repr

/-- The export directory as a journal of writes, most recent first; a read
returns the bytes of the most recent write to the path. -/
def diskRead (disk : List (String × String)) (path : String) : Option String :=
  (disk.find? fun e => e.1 == path).map Prod.snd

/-- The attachment loop of save_messages for one record: for every
attachment the code re-initialises img_id to 0, writes the attachment
bytes to <filename>/<img_id>.png, records that path in the images list,
and increments img_id inside the loop body, where the increment is undone
by the next re-initialisation. -/
def saveAttachments (filename : String) (atts : List String)
    (disk : List (String × String)) : List String × List (String × String) :=
  atts.foldl
    (fun acc a =>
      let imgId : Nat := 0
      let path := filename ++ "/" ++ toString imgId ++ ".png"
      (acc.1 ++ [path], (path, a) :: acc.2))
    ([], disk)

/-- The save_messages command: one header entry, then one record entry per
channel message, oldest first; contents pass through the deemojify filter,
embeds contribute their descriptions, attachments are written to the
per-export directory. Returns the document entries and the directory
state. -/
def save_messages (deemojify : String → String) (chnName : String)
    (chnId : Nat) (filename : String) (ch : List Msg) :
    List SaveEntry × List (String × String) :=
  ch.foldl
    (fun acc m =>
      let saved := saveAttachments filename m.attachments acc.2
      (acc.1 ++ [SaveEntry.record (deemojify m.content) saved.1
        (m.embeds.map Embed.description)], saved.2))
    ([SaveEntry.header chnName chnId], [])

/-- One record as re-sent by publish: content after the emojify filter,
attachment bytes re-read from the export directory, description-only
embeds. -/
structure PubRec where
  content : String
  files : List String
  embeds : List String
deriving DecidableEq, Repr

/-- The record loop of publish: one new record per record entry, in order;
every image path is re-read from the export directory, and a missing file
raises (modelled as none), as does a header entry among the records. -/
def publishEntries (emojify : String → String)
    (disk : List (String × String)) : List SaveEntry → Option (List PubRec)
  | [] => some []
  | SaveEntry.header _ _ :: _ => none
  | SaveEntry.record c imgs embs :: rest =>
    match imgs.mapM (diskRead disk) with
    | none => none
    | some files =>
      match publishEntries emojify disk rest with
      | none => none
      | some recs =>
        some ({ content := emojify c, files := files, embeds := embs } :: recs)

/-- The publish command: parse the document, skip the first (header)
entry, and replay the record entries. -/
def publish (emojify : String → String) (disk : List (String × String))
    (entries : List SaveEntry) : Option (List PubRec) :=
  publishEntries emojify disk (entries.drop 1)

/-- Modelled from the spec: the title pattern reTitleGroup lives in the
repository constants module, which is not among the analysed sources; per
spec section 4.4 it captures a bold-delimited leading segment of a
message content. Scan for the closing pair of asterisks after a leading
pair. -/
def findBold : List Char → Option (List Char × List Char)
  | '*' :: '*' :: rest => some ([], rest)
  | c :: rest => (findBold rest).map fun pr => (c :: pr.1, pr.2)
  | [] => none

/-- Modelled from the spec: match of reTitleGroup against a content and
its captured group, a bold-delimited leading title segment. -/
def titleHit (s : String) : Option String :=
  match s.data with
  | '*' :: '*' :: rest =>
    match findBold rest with
    | some (mid, _) => some (String.mk ('*' :: '*' :: (mid ++ ['*', '*'])))
    | none => none
  | _ => none

/-- The summary command body: scan the channel oldest first, append one
display-link line per title-bearing message (the captured group with the
hash characters removed and trimmed, linking to the message), and return the accumulated
description of the single Table of Contents embed. -/
def summaryDescription (ch : List Msg) : String :=
  ch.foldl
    (fun desc m =>
      match titleHit m.content with
      | some g =>
        desc ++ "[" ++ (g.replace "#" "").trim ++ "](msg://"
          ++ toString m.id ++ ")\n"
      | none => desc)
    ""

/-- A send into the channel as issued by republish: content, re-uploaded
attachment files, embeds, and the suppress flag. -/
structure SendPayload where
  content : String
  files : List String
  embeds : List Embed
  suppress : Bool
deriving DecidableEq, Repr

/-- Channel-mutating effects of the republish command, in order. -/
inductive ChannelEffect where
  | send : SendPayload → ChannelEffect
  | delete : Nat → ChannelEffect
deriving DecidableEq, Repr

/-- The per-record send of republish: non-empty content is re-sent
verbatim for bot-authored records and through the emojify filter for
foreign ones, attachments re-uploaded and embeds carried, suppressing
auto-embeds unless the record itself has embeds; an empty record whose
first embed is titled "Содержание" triggers the summary command against
the current channel state; any other empty record becomes the minimal
placeholder. -/
def republishPayload (emojify : String → String) (bot : Nat)
    (cur : List Msg) (m : Msg) : SendPayload :=
  if m.content ≠ "" then
    if m.author = bot then
      { content := m.content
        files := m.attachments
        embeds := m.embeds
        suppress := m.embeds.isEmpty }
    else
      { content := emojify m.content
        files := m.attachments
        embeds := m.embeds
        suppress := m.embeds.isEmpty }
  else
    match m.embeds with
    | e :: _ =>
      if e.title = some "Содержание" then
        { content := ""
          files := []
          embeds := [{ title := some "Содержание", description := summaryDescription cur }]
          suppress := false }
      else { content := "*** ***", files := [], embeds := [], suppress := false }
    | [] => { content := "*** ***", files := [], embeds := [], suppress := false }

/-- The republish loop: walk the original records oldest first (the
history snapshot), send the replacement for each record into the current
channel, then delete the original; the platform assigns fresh ids from
nid upward. Returns the effect trace and the final channel. -/
def republishLoop (emojify : String → String) (bot : Nat) :
    List Msg → List Msg → Nat → List ChannelEffect × List Msg
  | [], cur, _ => ([], cur)
  | m :: rest, cur, nid =>
    let p := republishPayload emojify bot cur m
    let sent : Msg := { id := nid, author := bot, content := p.content, attachments := p.files, embeds := p.embeds }
    let cur2 := (cur ++ [sent]).filter fun x => x.id != m.id
    let next := republishLoop emojify bot rest cur2 (nid + 1)
    (ChannelEffect.send p :: ChannelEffect.delete m.id :: next.1, next.2)

/-- The republish command over a channel. -/
def republish (emojify : String → String) (bot : Nat) (ch : List Msg)
    (nid : Nat) : List ChannelEffect × List Msg :=
  republishLoop emojify bot ch ch nid

/-- The payloads sent by the republish loop, in order. -/
def republishSends (emojify : String → String) (bot : Nat) :
    List Msg → List Msg → Nat → List SendPayload
  | [], _, _ => []
  | m :: rest, cur, nid =>
    let p := republishPayload emojify bot cur m
    let sent : Msg := { id := nid, author := bot, content := p.content, attachments := p.files, embeds := p.embeds }
    p :: republishSends emojify bot rest
      ((cur ++ [sent]).filter fun x => x.id != m.id) (nid + 1)

/-- The per-record send contract of claim C9 as amended: verbatim for
bot-authored records with text, emoji-filtered for foreign records with
text, a regenerated Table of Contents embed when the record has no text
and its first embed is titled "Содержание", and the minimal placeholder
otherwise. -/
def republishSendSpec (emojify : String → String) (bot : Nat)
    (m : Msg) (p : SendPayload) : Prop :=
  (m.content ≠ "" → m.author = bot →
    p = { content := m.content, files := m.attachments, embeds := m.embeds, suppress := m.embeds.isEmpty })
  ∧ (m.content ≠ "" → m.author ≠ bot →
    p = { content := emojify m.content, files := m.attachments, embeds := m.embeds, suppress := m.embeds.isEmpty })
  ∧ (m.content = "" → m.embeds.head?.map Embed.title = some (some "Содержание") →
    p.content = "" ∧ p.embeds.map Embed.title = [some "Содержание"])
  ∧ (m.content = "" → ¬ (m.embeds.head?.map Embed.title = some (some "Содержание")) →
    p = { content := "*** ***", files := [], embeds := [], suppress := false })

/-- Derived shape of the record entry save_messages emits for one message
(established by save_messages_spec below): because img_id restarts at 0
for every attachment, every image path of the record is the same
<filename>/0.png. -/
def savedRecord (deemojify : String → String) (filename : String)
    (m : Msg) : SaveEntry :=
  SaveEntry.record (deemojify m.content)
    (m.attachments.map fun _ => filename ++ "/" ++ toString (0 : Nat) ++ ".png")
    (m.embeds.map Embed.description)

/-- Whitespace as in the character class of the bare-link pattern. -/
def isSpaceChar (c : Char) : Bool :=
  c == ' ' || c == '\t' || c == '\n' || c == '\r' || c == '\x0b' || c == '\x0c'

/-- A character the bare-link run may contain: anything except whitespace
and the closing parenthesis. -/
def isBareChar (c : Char) : Bool :=
  !(isSpaceChar c) && c != ')'

/-- Match a literal prefix, returning the rest of the text. -/
def eatLit : List Char → List Char → Option (List Char)
  | [], s => some s
  | _ :: _, [] => none
  | p :: ps, c :: cs => if c = p then eatLit ps cs else none

/-- The host part of both link patterns, https://(www.)?wowhead.com/ :
the optional www. group is greedy, so the longer literal is tried first.
Returns the consumed characters and the rest. -/
def urlHead (s : List Char) : Option (List Char × List Char) :=
  match eatLit "https://www.wowhead.com/".data s with
  | some rest => some ("https://www.wowhead.com/".data, rest)
  | none =>
    match eatLit "https://wowhead.com/".data s with
    | some rest => some ("https://wowhead.com/".data, rest)
    | none => none

/-- The id captured from a bare-link run: the greedy backtracking prefix
of the pattern selects the last occurrence of item= followed by at least
one digit; the capture is the maximal digit run after it. -/
def lastItemId : List Char → Option (List Char)
  | [] => none
  | c :: cs =>
    match lastItemId cs with
    | some d => some d
    | none =>
      match eatLit "item=".data (c :: cs) with
      | some rest =>
        let ds := rest.takeWhile Char.isDigit
        if ds = [] then none else some ds
      | none => none

/-- One attempt of the bare-link pattern of fix_item_links,
https followed by the host, a run of non-space non-parenthesis characters
containing item= with a captured digit run, at the start of the text.
Returns the whole match, the captured id digits, and the rest. -/
def unfixedAt (s : List Char) : Option (List Char × List Char × List Char) :=
  match urlHead s with
  | none => none
  | some (head, afterHead) =>
    let run := afterHead.takeWhile isBareChar
    let rest := afterHead.dropWhile isBareChar
    match lastItemId run with
    | none => none
    | some d => some (head ++ run, d, rest)

/-- Does the run contain item= followed by at least one digit. -/
def hasItemDigit : List Char → Bool
  | [] => false
  | c :: cs =>
    (match eatLit "item=".data (c :: cs) with
      | some (d :: _) => d.isDigit
      | _ => false)
    || hasItemDigit cs

/-- The url-in-parentheses tail of the display-link pattern: the host, a
run of non-parenthesis characters containing item= with a digit, and the
closing parenthesis. Returns the consumed characters and the rest. -/
def fixedUrl (s : List Char) : Option (List Char × List Char) :=
  match urlHead s with
  | none => none
  | some (head, afterHead) =>
    let run := afterHead.takeWhile (fun c => c != ')')
    match afterHead.dropWhile (fun c => c != ')') with
    | ')' :: rest =>
      if hasItemDigit run then some (head ++ run ++ [')'], rest) else none
    | _ => none

/-- The non-greedy interior of the display-link pattern after the opening
bracket: try the earliest closing bracket followed by an opening
parenthesis and a matching url tail, letting the dot consume the bracket
otherwise; the dot does not cross a newline. Returns the consumed
characters and the rest. -/
def fixedTail : List Char → Option (List Char × List Char)
  | [] => none
  | c :: cs =>
    let here : Option (List Char × List Char) :=
      match c, cs with
      | ']', '(' :: s2 =>
        match fixedUrl s2 with
        | some (url, rest) => some (']' :: '(' :: url, rest)
        | none => none
      | _, _ => none
    match here with
    | some r => some r
    | none =>
      if c = '\n' then none
      else
        match fixedTail cs with
        | some (tl, rest) => some (c :: tl, rest)
        | none => none

/-- One attempt of the display-link pattern of fix_item_links (a markdown
link whose url part is a catalog item link) at the start of the text.
Returns the whole match and the rest. -/
def fixedAt : List Char → Option (List Char × List Char)
  | '[' :: s1 =>
    match fixedTail s1 with
    | some (tl, rest) => some ('[' :: tl, rest)
    | none => none
  | _ => none

/-- Prepend an unmatched character to a piece list, merging it into a
leading chunk. -/
def consChunk (c : Char) : List (Bool × List Char) → List (Bool × List Char)
  | (false, t) :: ps => (false, c :: t) :: ps
  | ps => (false, [c]) :: ps

/-- The text split by the non-overlapping leftmost scan of the
display-link pattern: true tags a matched span, false a maximal run of
unmatched characters. Fuel bounds the recursion; any fuel at least the
length of the text is exact, and the split concatenates back to the text
for every fuel. -/
def fixedPieces : Nat → List Char → List (Bool × List Char)
  | _, [] => []
  | 0, s => [(false, s)]
  | fuel + 1, c :: cs =>
    match fixedAt (c :: cs) with
    | some (m, rest) => (true, m) :: fixedPieces fuel rest
    | none => consChunk c (fixedPieces fuel cs)

/-- Concatenation of the pieces of a split. -/
def joinPieces {α : Type} (ps : List (α × List Char)) : List Char :=
  (ps.map Prod.snd).flatten

/-- The blanked working copy: every display-link span replaced by spaces
of equal length, so it cannot be matched by the bare-link pattern. -/
def blankFixed (fuel : Nat) (s : List Char) : List Char :=
  ((fixedPieces fuel s).map fun p =>
    if p.1 then List.replicate p.2.length ' ' else p.2).flatten

/-- findall of the bare-link pattern: the captured ids of the
non-overlapping leftmost matches, in order. -/
def unfixedIds : Nat → List Char → List (List Char)
  | _, [] => []
  | 0, _ => []
  | fuel + 1, c :: cs =>
    match unfixedAt (c :: cs) with
    | some (_, d, rest) => d :: unfixedIds fuel rest
    | none => unfixedIds fuel cs

/-- Deduplicate preserving first occurrence, as dict.fromkeys does. -/
def dedupFirst (ids : List (List Char)) : List (List Char) :=
  ids.foldl (fun acc d => if d ∈ acc then acc else acc ++ [d]) []

/-- The ids fix_item_links collects from a content: blank the
display-link spans, find all bare-link ids in the blanked copy, and
deduplicate preserving first occurrence. -/
def collectLinkIds (s : List Char) : List (List Char) :=
  dedupFirst (unfixedIds (blankFixed s.length s).length (blankFixed s.length s))

/-- The display link replace_match produces for a resolved id. -/
def wrapLink (name d : List Char) : List Char :=
  '[' :: name
    ++ (']' :: '(' :: "https://www.wowhead.com/ru/item=".data ++ d ++ [')'])

/-- The substitution pass over one chunk: scan for bare links; a match
whose id has a name is replaced by its display link, one without is left
as matched, everything else is copied. -/
def subUnfixed (names : List Char → Option (List Char)) :
    Nat → List Char → List Char
  | _, [] => []
  | 0, s => s
  | fuel + 1, c :: cs =>
    match unfixedAt (c :: cs) with
    | some (m, d, rest) =>
      (match names d with
        | some name => wrapLink name d
        | none => m) ++ subUnfixed names fuel rest
    | none => c :: subUnfixed names fuel cs

/-- replace_unfixed(content): copy every display-link span verbatim and
apply the substitution to the chunks between them. -/
def replaceUnfixed (names : List Char → Option (List Char)) (s : List Char) :
    List Char :=
  ((fixedPieces s.length s).map fun p =>
    if p.1 then p.2 else subUnfixed names p.2.length p.2).flatten

/-- Prepend an unmatched character to a bare-link piece list, merging it
into a leading chunk. -/
def consUChunk (c : Char) :
    List (Option (List Char) × List Char) → List (Option (List Char) × List Char)
  | (none, t) :: ps => (none, c :: t) :: ps
  | ps => (none, [c]) :: ps

/-- The chunk split by the bare-link scan: a some tag carries the
captured id of a matched bare link, none tags unmatched text. -/
def unfixedPieces : Nat → List Char → List (Option (List Char) × List Char)
  | _, [] => []
  | 0, s => [(none, s)]
  | fuel + 1, c :: cs =>
    match unfixedAt (c :: cs) with
    | some (m, d, rest) => (some d, m) :: unfixedPieces fuel rest
    | none => consUChunk c (unfixedPieces fuel cs)

/-- How one bare-link piece is rendered by the substitution: a resolved
match becomes the display link, an unresolved match and unmatched text
stay verbatim. -/
def renderUPiece (names : List Char → Option (List Char))
    (p : Option (List Char) × List Char) : List Char :=
  match p.1 with
  | some d =>
    match names d with
    | some name => wrapLink name d
    | none => p.2
  | none => p.2

/-- A network interaction of the enrichment pipeline, in submission
order. -/
inductive NetCall where
  | token : NetCall
  | itemLookup : List Char → NetCall
deriving DecidableEq, Repr

/-- get_blizzard_token: the client-credential exchange;
raise_for_status() turns a non-2xx response into a raised error,
otherwise the access token field of the body is returned. -/
def get_blizzard_token (ok2xx : Bool) (accessToken : String) :
    Except String String :=
  if ok2xx then Except.ok accessToken else Except.error "HTTPError"

/-- fix_item_links over a message content: collect the bare-link ids of
the span-blanked content; with no ids, return the content unchanged and
make no network call; otherwise exchange the token (a non-2xx response
raises out of the call before any name lookup, leaving the content
unmodified), then look every collected id up (a per-id failure just
leaves the id out of the name table, which never holds uncollected ids)
and rewrite the original content. The oracle names gives the fixed
resolution results. -/
def fix_item_links (ok2xx : Bool) (accessToken : String)
    (names : List Char → Option (List Char)) (content : List Char) :
    Except String (List Char) × List NetCall :=
  let ids := collectLinkIds content
  if ids = [] then (Except.ok content, [])
  else
    match get_blizzard_token ok2xx accessToken with
    | Except.error e => (Except.error e, [NetCall.token])
    | Except.ok _ =>
      (Except.ok (replaceUnfixed
          (fun d => if d ∈ ids then names d else none) content),
        NetCall.token :: ids.map NetCall.itemLookup)

/-! ### Theorems -/

theorem editMsg_map_id (ch : List Msg) (mid : Nat) (c : String)
    (att : List String) (em : List Embed) :
    (editMsg ch mid c att em).map Msg.id = ch.map Msg.id := by
  simp only [editMsg, List.map_map]
  apply List.map_congr_left
  intro m _
  by_cases h : m.id = mid <;> simp [h]

theorem botMsgs_editMsg (bot : Nat) (ch : List Msg) (mid : Nat) (c : String)
    (att : List String) (em : List Embed) :
    botMsgs bot (editMsg ch mid c att em) = editMsg (botMsgs bot ch) mid c att em := by
  induction ch with
  | nil => rfl
  | cons m rest ih =>
    by_cases h : m.id = mid <;>
      by_cases hb : m.author = bot <;>
        simp [editMsg, botMsgs, List.filter_cons, h, hb] at ih ⊢ <;>
          simpa [editMsg, botMsgs] using ih

theorem botMsgs_finalTargetEdit (bot : Nat) (ch : List Msg) (tid : Nat) :
    botMsgs bot (finalTargetEdit ch tid) = finalTargetEdit (botMsgs bot ch) tid := by
  induction ch with
  | nil => rfl
  | cons m rest ih =>
    by_cases h : m.id = tid <;>
      by_cases hb : m.author = bot <;>
        simp [finalTargetEdit, botMsgs, List.filter_cons, h, hb] at ih ⊢ <;>
          simpa [finalTargetEdit, botMsgs] using ih

theorem fetch_unique (ch : List Msg) (m : Msg) (b : Nat)
    (hnd : (ch.map Msg.id).Nodup) (hm : m ∈ ch) (hid : m.id = b) :
    fetchMsg ch b = some m := by
  induction ch with
  | nil => cases hm
  | cons x rest ih =>
    simp only [List.map_cons, List.nodup_cons] at hnd
    rcases List.mem_cons.mp hm with rfl | hm2
    · simp [fetchMsg, List.find?_cons, hid]
    · have hxb : x.id ≠ b := by
        intro hxb
        exact hnd.1 (hxb ▸ hid ▸ List.mem_map_of_mem Msg.id hm2)
      have hfalse : (x.id == b) = false := by simp [hxb]
      simp only [fetchMsg, List.find?_cons, hfalse]
      exact ih hnd.2 hm2

theorem editMsg_untouched (ch : List Msg) (mid : Nat) (c : String)
    (att : List String) (em : List Embed) (h : mid ∉ ch.map Msg.id) :
    editMsg ch mid c att em = ch := by
  induction ch with
  | nil => rfl
  | cons x rest ih =>
    simp only [List.map_cons, List.mem_cons, not_or] at h
    have hx : ¬ x.id = mid := fun hx => h.1 hx.symm
    have hr := ih h.2
    simp only [editMsg, List.map_cons, if_neg hx] at hr ⊢
    rw [hr]

theorem editMsg_structured (xs ys : List Msg) (m : Msg) (c : String)
    (att : List String) (em : List Embed)
    (h1 : m.id ∉ xs.map Msg.id) (h2 : m.id ∉ ys.map Msg.id) :
    editMsg (xs ++ m :: ys) m.id c att em
      = xs ++ { m with content := c, attachments := att, embeds := em } :: ys := by
  have hxs : editMsg xs m.id c att em = xs := editMsg_untouched xs m.id c att em h1
  have hys : editMsg ys m.id c att em = ys := editMsg_untouched ys m.id c att em h2
  simp only [editMsg] at hxs hys
  simp only [editMsg, List.map_append, List.map_cons, if_pos rfl, if_true, hxs, hys]

theorem finalTargetEdit_untouched (ch : List Msg) (tid : Nat)
    (h : tid ∉ ch.map Msg.id) : finalTargetEdit ch tid = ch := by
  induction ch with
  | nil => rfl
  | cons x rest ih =>
    simp only [List.map_cons, List.mem_cons, not_or] at h
    have hx : ¬ x.id = tid := fun hx => h.1 hx.symm
    have hr := ih h.2
    simp only [finalTargetEdit, List.map_cons, if_neg hx] at hr ⊢
    rw [hr]

theorem finalTargetEdit_structured (xs ys : List Msg) (m : Msg)
    (h1 : m.id ∉ xs.map Msg.id) (h2 : m.id ∉ ys.map Msg.id) :
    finalTargetEdit (xs ++ m :: ys) m.id
      = xs ++ { m with content := "**[PH]**", embeds := [] } :: ys := by
  have hxs : finalTargetEdit xs m.id = xs := finalTargetEdit_untouched xs m.id h1
  have hys : finalTargetEdit ys m.id = ys := finalTargetEdit_untouched ys m.id h2
  simp only [finalTargetEdit] at hxs hys
  simp only [finalTargetEdit, List.map_append, List.map_cons, if_pos rfl, if_true, hxs, hys]

theorem fetch_structured (xs ys : List Msg) (m : Msg)
    (h1 : m.id ∉ xs.map Msg.id) :
    fetchMsg (xs ++ m :: ys) m.id = some m := by
  induction xs with
  | nil => simp [fetchMsg, List.find?_cons]
  | cons x rest ih =>
    simp only [List.map_cons, List.mem_cons, not_or] at h1
    have hx : (x.id == m.id) = false := by
      simp
      exact fun hx => h1.1 hx.symm
    simp only [List.cons_append, fetchMsg, List.find?_cons, hx]
    exact ih h1.2

theorem collectBotIds_split (bot tid : Nat) (xs ys : List Msg) (t : Msg)
    (ht : t.author = bot) (htid : t.id = tid)
    (hxs : ∀ m ∈ xs, m.id ≠ tid) :
    collectBotIds bot tid (xs ++ t :: ys)
      = (botMsgs bot xs).map Msg.id ++ [tid] := by
  induction xs with
  | nil => simp [collectBotIds, ht, htid, botMsgs]
  | cons x rest ih =>
    have hx : x.id ≠ tid := hxs x (List.mem_cons_self x rest)
    have hrest : ∀ m ∈ rest, m.id ≠ tid := fun m hm => hxs m (List.mem_cons_of_mem x hm)
    by_cases hb : x.author = bot <;>
      simp [collectBotIds, hb, hx, botMsgs, List.filter_cons, ih hrest]

theorem zipWith_copyState_map_id (X Y : List Msg) (h : X.length ≤ Y.length) :
    (List.zipWith copyState X Y).map Msg.id = X.map Msg.id := by
  induction X generalizing Y with
  | nil => simp
  | cons x xs ih =>
    cases Y with
    | nil => simp at h
    | cons y ys =>
      simp only [List.length_cons, Nat.add_le_add_iff_right] at h
      simp [List.zipWith, copyState, ih ys h]

theorem zipWith_copyState_map_content (X Y : List Msg) (h : X.length = Y.length) :
    (List.zipWith copyState X Y).map Msg.content = Y.map Msg.content := by
  induction X generalizing Y with
  | nil =>
    cases Y with
    | nil => simp
    | cons y ys => simp at h
  | cons x xs ih =>
    cases Y with
    | nil => simp at h
    | cons y ys =>
      simp only [List.length_cons, Nat.add_right_cancel_iff] at h
      simp [List.zipWith, copyState, ih ys h]

theorem nodup_mid (xs ys : List Msg) (m : Msg)
    (h : ((xs ++ m :: ys).map Msg.id).Nodup) :
    m.id ∉ xs.map Msg.id ∧ m.id ∉ ys.map Msg.id := by
  rw [List.map_append, List.map_cons, List.nodup_middle, List.nodup_cons,
    List.mem_append] at h
  exact ⟨fun hx => h.1 (Or.inl hx), fun hy => h.1 (Or.inr hy)⟩

theorem shiftLoop_structured (C : List Msg) : ∀ (pre post : List Msg) (t last : Msg),
    ((pre ++ (t :: (C ++ (last :: post)))).map Msg.id).Nodup →
    shiftLoop (pre ++ (t :: (C ++ (last :: post))))
        (last.id :: ((C.map Msg.id).reverse ++ [t.id]))
      = some (pre ++ (t :: ((List.zipWith copyState (C ++ [last]) (t :: C)) ++ post))) := by
  induction C using List.reverseRecOn with
  | nil =>
    intro pre post t last hnd
    simp only [List.nil_append] at hnd ⊢
    have hsh1 : pre ++ (t :: (last :: post)) = (pre ++ [t]) ++ last :: post := by
      simp
    have hlast : last.id ∉ ((pre ++ [t]) : List Msg).map Msg.id :=
      (nodup_mid (pre ++ [t]) post last (by rw [← hsh1]; exact hnd)).1
    have hfl : fetchMsg (pre ++ (t :: (last :: post))) last.id = some last := by
      rw [hsh1]; exact fetch_structured (pre ++ [t]) post last hlast
    have ht' : t.id ∉ pre.map Msg.id := (nodup_mid pre (last :: post) t hnd).1
    have hft : fetchMsg (pre ++ (t :: (last :: post))) t.id = some t :=
      fetch_structured pre (last :: post) t ht'
    have hlast2 : last.id ∉ post.map Msg.id :=
      (nodup_mid (pre ++ [t]) post last (by rw [← hsh1]; exact hnd)).2
    have hedit : editMsg (pre ++ (t :: (last :: post))) last.id
        t.content t.attachments t.embeds
        = (pre ++ [t]) ++ copyState last t :: post := by
      rw [hsh1]
      exact editMsg_structured (pre ++ [t]) post last t.content t.attachments
        t.embeds hlast hlast2
    simp only [List.map_nil, List.reverse_nil, List.nil_append, shiftLoop, hfl,
      hft, hedit]
    simp [copyState]
  | append_singleton C' c ih =>
    intro pre post t last hnd
    have hsh1 : pre ++ (t :: ((C' ++ [c]) ++ (last :: post)))
        = (pre ++ (t :: (C' ++ [c]))) ++ last :: post := by simp
    have hsh2 : pre ++ (t :: ((C' ++ [c]) ++ (last :: post)))
        = (pre ++ (t :: C')) ++ c :: (last :: post) := by simp
    have hlast : last.id ∉ ((pre ++ (t :: (C' ++ [c]))) : List Msg).map Msg.id :=
      (nodup_mid _ post last (by rw [← hsh1]; exact hnd)).1
    have hlast2 : last.id ∉ post.map Msg.id :=
      (nodup_mid _ post last (by rw [← hsh1]; exact hnd)).2
    have hfl : fetchMsg (pre ++ (t :: ((C' ++ [c]) ++ (last :: post)))) last.id
        = some last := by
      rw [hsh1]; exact fetch_structured _ post last hlast
    have hc : c.id ∉ ((pre ++ (t :: C')) : List Msg).map Msg.id :=
      (nodup_mid _ (last :: post) c (by rw [← hsh2]; exact hnd)).1
    have hfc : fetchMsg (pre ++ (t :: ((C' ++ [c]) ++ (last :: post)))) c.id
        = some c := by
      rw [hsh2]; exact fetch_structured _ (last :: post) c hc
    have hedit : editMsg (pre ++ (t :: ((C' ++ [c]) ++ (last :: post)))) last.id
        c.content c.attachments c.embeds
        = pre ++ (t :: (C' ++ (c :: (copyState last c :: post)))) := by
      rw [hsh1]
      rw [editMsg_structured (pre ++ (t :: (C' ++ [c]))) post last c.content
        c.attachments c.embeds hlast hlast2]
      simp [copyState]
    have hnd2 : ((pre ++ (t :: (C' ++ (c :: (copyState last c :: post))))).map
        Msg.id).Nodup := by
      have hids : (pre ++ (t :: (C' ++ (c :: (copyState last c :: post))))).map
          Msg.id = (pre ++ (t :: ((C' ++ [c]) ++ (last :: post)))).map Msg.id := by
        simp [copyState]
      rw [hids]; exact hnd
    have hrec := ih pre (copyState last c :: post) t c hnd2
    have hidlist : (((C' ++ [c]).map Msg.id).reverse : List Nat)
        = c.id :: (C'.map Msg.id).reverse := by simp
    rw [hidlist]
    simp only [List.cons_append, shiftLoop, hfl, hfc, hedit]
    simp only [List.append_eq]
    rw [hrec]
    have hzip : List.zipWith copyState ((C' ++ [c]) ++ [last]) (t :: (C' ++ [c]))
        = List.zipWith copyState (C' ++ [c]) (t :: C') ++ [copyState last c] := by
      have hlen : (C' ++ [c]).length = (t :: C').length := by simp
      have hsplit : (t :: (C' ++ [c])) = (t :: C') ++ [c] := by simp
      rw [hsplit, List.zipWith_append copyState (C' ++ [c]) [last] (t :: C') [c] hlen]
      simp
    rw [hzip]
    simp

theorem finalTargetEdit_map_id (ch : List Msg) (tid : Nat) :
    (finalTargetEdit ch tid).map Msg.id = ch.map Msg.id := by
  simp only [finalTargetEdit, List.map_map]
  apply List.map_congr_left
  intro m _
  by_cases h : m.id = tid <;> simp [h]

theorem shiftLoop_proj (bot : Nat) (L : List Nat) : ∀ (ch : List Msg),
    (ch.map Msg.id).Nodup →
    (∀ b ∈ L, ∃ m, m ∈ ch ∧ m.id = b ∧ m.author = bot) →
    Option.map (botMsgs bot) (shiftLoop ch L) = shiftLoop (botMsgs bot ch) L := by
  induction L with
  | nil => intro ch _ _; simp [shiftLoop]
  | cons a L ih =>
    intro ch hnd hmem
    cases L with
    | nil => simp [shiftLoop]
    | cons b rest =>
      obtain ⟨ma, hma, hmaid, hmab⟩ := hmem a (by simp)
      obtain ⟨mb, hmb, hmbid, hmbb⟩ := hmem b (by simp)
      have hfa : fetchMsg ch a = some ma := fetch_unique ch ma a hnd hma hmaid
      have hfb : fetchMsg ch b = some mb := fetch_unique ch mb b hnd hmb hmbid
      have hndb : ((botMsgs bot ch).map Msg.id).Nodup :=
        List.Nodup.sublist ((List.filter_sublist ch).map Msg.id) hnd
      have hmaf : ma ∈ botMsgs bot ch := List.mem_filter.mpr ⟨hma, by simp [hmab]⟩
      have hmbf : mb ∈ botMsgs bot ch := List.mem_filter.mpr ⟨hmb, by simp [hmbb]⟩
      have hfa2 : fetchMsg (botMsgs bot ch) a = some ma :=
        fetch_unique (botMsgs bot ch) ma a hndb hmaf hmaid
      have hfb2 : fetchMsg (botMsgs bot ch) b = some mb :=
        fetch_unique (botMsgs bot ch) mb b hndb hmbf hmbid
      simp only [shiftLoop, hfa, hfb, hfa2, hfb2]
      have hmem2 : ∀ x ∈ b :: rest,
          ∃ m, m ∈ editMsg ch a mb.content mb.attachments mb.embeds
            ∧ m.id = x ∧ m.author = bot := by
        intro x hx
        obtain ⟨m, hm, hid, hb⟩ := hmem x (List.mem_cons_of_mem a hx)
        refine ⟨if m.id = a
            then { m with
              content := mb.content
              attachments := mb.attachments
              embeds := mb.embeds }
            else m, ?_, ?_, ?_⟩
        · exact List.mem_map_of_mem _ hm
        · by_cases h : m.id = a
          · rw [if_pos h]; exact hid
          · rw [if_neg h]; exact hid
        · by_cases h : m.id = a
          · rw [if_pos h]; exact hb
          · rw [if_neg h]; exact hb
      have hnd2 : ((editMsg ch a mb.content mb.attachments mb.embeds).map
          Msg.id).Nodup := by
        rw [editMsg_map_id]; exact hnd
      rw [← botMsgs_editMsg]
      exact ih _ hnd2 hmem2

theorem shiftLoop_map_id (L : List Nat) : ∀ (ch ch2 : List Msg),
    shiftLoop ch L = some ch2 → ch2.map Msg.id = ch.map Msg.id := by
  induction L with
  | nil => intro ch ch2 h; simp [shiftLoop] at h; simp [h]
  | cons a L ih =>
    intro ch ch2 h
    cases L with
    | nil => simp [shiftLoop] at h; simp [h]
    | cons b rest =>
      simp only [shiftLoop] at h
      cases hfa : fetchMsg ch a with
      | none => rw [hfa] at h; cases h
      | some ma =>
        cases hfb : fetchMsg ch b with
        | none => rw [hfa, hfb] at h; cases h
        | some nxt =>
          rw [hfa, hfb] at h
          have := ih (editMsg ch a nxt.content nxt.attachments nxt.embeds) ch2 h
          rw [this, editMsg_map_id]

theorem insert_message_master (bot freshId : Nat) (pre suf : List Msg) (t : Msg)
    (hb : t.author = bot)
    (hnd : ((pre ++ (t :: suf)).map Msg.id).Nodup)
    (hf : freshId ∉ (pre ++ (t :: suf)).map Msg.id) :
    collectBotIds bot t.id
        (((pre ++ (t :: suf)) ++ [placeholderMsg bot freshId]).reverse)
      = freshId :: (((botMsgs bot suf).map Msg.id).reverse ++ [t.id])
    ∧ ∃ res, insert_message bot freshId (pre ++ (t :: suf)) t.id = some res
      ∧ botMsgs bot res
          = botMsgs bot pre
            ++ ({ t with content := "**[PH]**", embeds := [] }
              :: List.zipWith copyState
                  (botMsgs bot suf ++ [placeholderMsg bot freshId])
                  (t :: botMsgs bot suf))
      ∧ res.map Msg.id = (pre ++ (t :: suf)).map Msg.id ++ [freshId] := by
  have htpre : t.id ∉ pre.map Msg.id := (nodup_mid pre suf t hnd).1
  have htsuf : t.id ∉ suf.map Msg.id := (nodup_mid pre suf t hnd).2
  have htmem : t.id ∈ (pre ++ (t :: suf)).map Msg.id := by simp
  have hrev : ((pre ++ (t :: suf)) ++ [placeholderMsg bot freshId]).reverse
      = (placeholderMsg bot freshId :: suf.reverse) ++ (t :: pre.reverse) := by
    simp
  have hcol : collectBotIds bot t.id
      (((pre ++ (t :: suf)) ++ [placeholderMsg bot freshId]).reverse)
      = freshId :: (((botMsgs bot suf).map Msg.id).reverse ++ [t.id]) := by
    rw [hrev]
    rw [collectBotIds_split bot t.id (placeholderMsg bot freshId :: suf.reverse)
      pre.reverse t hb rfl ?hside]
    case hside =>
      intro m hm
      rcases List.mem_cons.mp hm with rfl | hm2
      · intro hcontra
        have hfe : freshId = t.id := hcontra
        rw [hfe] at hf
        exact hf htmem
      · intro hcontra
        rw [List.mem_reverse] at hm2
        exact htsuf (hcontra ▸ List.mem_map_of_mem Msg.id hm2)
    simp [botMsgs, placeholderMsg, List.filter_cons, List.filter_reverse,
      List.map_reverse]
  have hids1 : ((pre ++ (t :: suf)) ++ [placeholderMsg bot freshId]).map Msg.id
      = (pre ++ (t :: suf)).map Msg.id ++ [freshId] := by
    simp [placeholderMsg]
  have hnd1 : (((pre ++ (t :: suf)) ++ [placeholderMsg bot freshId]).map
      Msg.id).Nodup := by
    rw [hids1, List.nodup_append]
    refine ⟨hnd, List.nodup_singleton freshId, ?_⟩
    intro x hx hx2
    rw [List.mem_singleton] at hx2
    exact hf (hx2 ▸ hx)
  have hsplit : botMsgs bot ((pre ++ (t :: suf)) ++ [placeholderMsg bot freshId])
      = botMsgs bot pre
        ++ (t :: (botMsgs bot suf ++ (placeholderMsg bot freshId :: []))) := by
    simp [botMsgs, List.filter_append, List.filter_cons, hb, placeholderMsg]
  have hndB : ((botMsgs bot pre
      ++ (t :: (botMsgs bot suf ++ (placeholderMsg bot freshId :: [])))).map
        Msg.id).Nodup := by
    rw [← hsplit]
    exact List.Nodup.sublist ((List.filter_sublist _).map Msg.id) hnd1
  have hsh := shiftLoop_structured (botMsgs bot suf) (botMsgs bot pre) [] t
    (placeholderMsg bot freshId) hndB
  have hmem : ∀ x ∈ freshId :: (((botMsgs bot suf).map Msg.id).reverse ++ [t.id]),
      ∃ m, m ∈ (pre ++ (t :: suf)) ++ [placeholderMsg bot freshId]
        ∧ m.id = x ∧ m.author = bot := by
    intro x hx
    rcases List.mem_cons.mp hx with h1 | hx2
    · exact ⟨placeholderMsg bot freshId, by simp, by rw [h1]; rfl, rfl⟩
    · rcases List.mem_append.mp hx2 with hx3 | hx4
      · rw [List.mem_reverse] at hx3
        obtain ⟨mc, hmc, hmcid⟩ := List.mem_map.mp hx3
        have h5 := List.mem_filter.mp hmc
        refine ⟨mc, ?_, hmcid, by simpa using h5.2⟩
        have : mc ∈ suf := h5.1
        simp [this]
      · rw [List.mem_singleton] at hx4
        exact ⟨t, by simp, hx4 ▸ rfl, hb⟩
  have hproj := shiftLoop_proj bot
    (freshId :: (((botMsgs bot suf).map Msg.id).reverse ++ [t.id]))
    ((pre ++ (t :: suf)) ++ [placeholderMsg bot freshId]) hnd1 hmem
  have hphid : (placeholderMsg bot freshId).id = freshId := rfl
  rw [hphid] at hsh
  rw [hsplit, hsh] at hproj
  obtain ⟨ch2, hch2, hbot2⟩ := Option.map_eq_some'.mp hproj
  have hrun : insert_message bot freshId (pre ++ (t :: suf)) t.id
      = some (finalTargetEdit ch2 t.id) := by
    simp only [insert_message]
    rw [hcol, hch2]
  have hzipids : (List.zipWith copyState
      (botMsgs bot suf ++ [placeholderMsg bot freshId])
      (t :: botMsgs bot suf)).map Msg.id
      = (botMsgs bot suf).map Msg.id ++ [freshId] := by
    rw [zipWith_copyState_map_id _ _ (by simp)]
    simp [placeholderMsg]
  have hsufbot : ((botMsgs bot suf).map Msg.id).Sublist (suf.map Msg.id) :=
    (List.filter_sublist suf).map Msg.id
  have hprebot : ((botMsgs bot pre).map Msg.id).Sublist (pre.map Msg.id) :=
    (List.filter_sublist pre).map Msg.id
  have htf : t.id ≠ freshId := fun h => hf (h ▸ htmem)
  have htid1 : t.id ∉ (botMsgs bot pre).map Msg.id :=
    fun hmem2 => htpre (hprebot.subset hmem2)
  have htid2 : t.id ∉ (List.zipWith copyState
      (botMsgs bot suf ++ [placeholderMsg bot freshId])
      (t :: botMsgs bot suf) ++ ([] : List Msg)).map Msg.id := by
    rw [List.append_nil, hzipids]
    intro hmem2
    rcases List.mem_append.mp hmem2 with h1 | h2
    · exact htsuf (hsufbot.subset h1)
    · exact htf (List.mem_singleton.mp h2)
  have hbotres : botMsgs bot (finalTargetEdit ch2 t.id)
      = botMsgs bot pre
        ++ ({ t with content := "**[PH]**", embeds := [] }
          :: List.zipWith copyState
              (botMsgs bot suf ++ [placeholderMsg bot freshId])
              (t :: botMsgs bot suf)) := by
    rw [botMsgs_finalTargetEdit, hbot2]
    have := finalTargetEdit_structured (botMsgs bot pre)
      (List.zipWith copyState (botMsgs bot suf ++ [placeholderMsg bot freshId])
        (t :: botMsgs bot suf) ++ ([] : List Msg)) t htid1 htid2
    simp only [List.append_nil] at this ⊢
    exact this
  have hresids : (finalTargetEdit ch2 t.id).map Msg.id
      = (pre ++ (t :: suf)).map Msg.id ++ [freshId] := by
    rw [finalTargetEdit_map_id]
    rw [shiftLoop_map_id _ _ _ hch2]
    exact hids1
  exact ⟨hcol, finalTargetEdit ch2 t.id, hrun, hbotres, hresids⟩

theorem shiftLoop_eq_foldlM (L : List Nat) : ∀ ch : List Msg,
    shiftLoop ch L = (L.zip L.tail).foldlM applyPair ch := by
  induction L with
  | nil => intro ch; rfl
  | cons a L ih =>
    intro ch
    cases L with
    | nil => rfl
    | cons b rest =>
      cases hfa : fetchMsg ch a with
      | none =>
        cases hfb : fetchMsg ch b <;>
          simp [shiftLoop, applyPair, hfa, hfb, List.foldlM]
      | some ma =>
        cases hfb : fetchMsg ch b with
        | none => simp [shiftLoop, applyPair, hfa, hfb, List.foldlM]
        | some nxt =>
          simp only [shiftLoop, applyPair, hfa, hfb, List.zip_cons_cons,
            List.tail_cons]
          rw [ih]
          simp [applyPair, hfa, hfb, List.foldlM]

/-- Claim C1 (confirmed). Cascade insertion postcondition: with the channel
decomposed as pre ++ t :: suf around a bot-authored target t, with pairwise
distinct message ids and a fresh placeholder id, insert_message succeeds,
and afterwards the automation owns one more record; reading the
automation-owned contents oldest to newest gives the contents before the
target unchanged, the inserted content at the slot of the target, every
later automation-owned slot holding the content that sat one
automation-owned position earlier, and the newly appended slot holding the
previously newest automation-owned content; the target record itself now
reads as the inserted content. -/
theorem insert_message_cascade_postcondition (bot freshId : Nat)
    (pre suf : List Msg) (t : Msg)
    (hb : t.author = bot)
    (hnd : ((pre ++ (t :: suf)).map Msg.id).Nodup)
    (hf : freshId ∉ (pre ++ (t :: suf)).map Msg.id) :
    ∃ res, insert_message bot freshId (pre ++ (t :: suf)) t.id = some res
      ∧ botContents bot res
          = botContents bot pre ++ "**[PH]**" :: (t.content :: botContents bot suf)
      ∧ (botMsgs bot res).map Msg.id
          = (botMsgs bot (pre ++ (t :: suf))).map Msg.id ++ [freshId]
      ∧ (botMsgs bot res).length = (botMsgs bot (pre ++ (t :: suf))).length + 1
      ∧ (fetchMsg res t.id).map Msg.content = some "**[PH]**" := by
  obtain ⟨hcol, res, hrun, hbot, hids⟩ :=
    insert_message_master bot freshId pre suf t hb hnd hf
  have hsplitch : botMsgs bot (pre ++ (t :: suf))
      = botMsgs bot pre ++ (t :: botMsgs bot suf) := by
    simp [botMsgs, List.filter_append, List.filter_cons, hb]
  have hzipids : (List.zipWith copyState
      (botMsgs bot suf ++ [placeholderMsg bot freshId])
      (t :: botMsgs bot suf)).map Msg.id
      = (botMsgs bot suf).map Msg.id ++ [freshId] := by
    rw [zipWith_copyState_map_id _ _ (by simp)]
    simp [placeholderMsg]
  have hcont : botContents bot res
      = botContents bot pre ++ "**[PH]**" :: (t.content :: botContents bot suf) := by
    simp only [botContents, hbot, List.map_append, List.map_cons]
    rw [zipWith_copyState_map_content _ _ (by simp)]
    simp
  have hidlist : (botMsgs bot res).map Msg.id
      = (botMsgs bot (pre ++ (t :: suf))).map Msg.id ++ [freshId] := by
    rw [hbot, hsplitch]
    simp only [List.map_append, List.map_cons, hzipids]
    simp
  refine ⟨res, hrun, hcont, hidlist, ?_, ?_⟩
  · have := congrArg List.length hidlist
    simpa using this
  · have hmm : ({ t with content := "**[PH]**", embeds := [] } : Msg)
        ∈ botMsgs bot res := by
      rw [hbot]; simp
    have hmm2 : ({ t with content := "**[PH]**", embeds := [] } : Msg) ∈ res :=
      (List.mem_filter.mp hmm).1
    have hndres : (res.map Msg.id).Nodup := by
      rw [hids, List.nodup_append]
      refine ⟨hnd, List.nodup_singleton freshId, ?_⟩
      intro x hx hx2
      rw [List.mem_singleton] at hx2
      exact hf (hx2 ▸ hx)
    have hft := fetch_unique res _ t.id hndres hmm2 rfl
    rw [hft]
    rfl

/-- Claim C1 witness: a concrete channel with a bot target (id 1), a
foreign message (id 2) and a newer bot message (id 3). -/
theorem insert_message_cascade_postcondition_case :
    ∃ res, insert_message 5 9
        ([] ++ ((⟨1, 5, "T", ["ta"], []⟩ : Msg)
          :: [⟨2, 7, "F", [], []⟩, ⟨3, 5, "C", [], []⟩])) 1 = some res
      ∧ botContents 5 res = botContents 5 [] ++ "**[PH]**" :: ("T" :: botContents 5 [⟨2, 7, "F", [], []⟩, ⟨3, 5, "C", [], []⟩])
      ∧ (botMsgs 5 res).map Msg.id
          = (botMsgs 5 ([] ++ ((⟨1, 5, "T", ["ta"], []⟩ : Msg)
            :: [⟨2, 7, "F", [], []⟩, ⟨3, 5, "C", [], []⟩]))).map Msg.id ++ [9]
      ∧ (botMsgs 5 res).length = (botMsgs 5 ([] ++ ((⟨1, 5, "T", ["ta"], []⟩ : Msg)
          :: [⟨2, 7, "F", [], []⟩, ⟨3, 5, "C", [], []⟩]))).length + 1
      ∧ (fetchMsg res 1).map Msg.content = some "**[PH]**" :=
  insert_message_cascade_postcondition 5 9 []
    [⟨2, 7, "F", [], []⟩, ⟨3, 5, "C", [], []⟩] ⟨1, 5, "T", ["ta"], []⟩
    rfl (by decide) (by decide)

/-- Claim C2 counterexample. Channel (oldest first): bot target id 1, bot
message id 3; the placeholder gets id 9. Per the claim the collected ids
ordered oldest to newest with the target first are [1, 3], so the
prescribed pairs are [(1, 3)]: the target itself would be the first
record overwritten. The code instead processes [(9, 3), (3, 1)]: the
collected list is newest first, the appended placeholder is its head and
the first record overwritten, the target is only ever a source. -/
theorem insert_pairing_direction_refuted :
    insert_trace 5 9 [⟨1, 5, "T", [], []⟩, ⟨3, 5, "C", [], []⟩] 1
        = [(9, 3), (3, 1)]
      ∧ claimPairList [1, 3] = [(1, 3)]
      ∧ insert_trace 5 9 [⟨1, 5, "T", [], []⟩, ⟨3, 5, "C", [], []⟩] 1
          ≠ claimPairList [1, 3] := by
  refine ⟨rfl, rfl, ?_⟩
  decide

/-- Claim C2 amended: with the collected ids ordered newest to oldest,
the head being the appended placeholder and the last element the target,
the loop overwrites, for each adjacent pair, the first (newer) id with the
current state of the second (older) id, strictly sequentially in that
order: the edit trace is exactly the adjacent-pair list of the collected
newest-to-oldest ids, and the loop is the sequential fold of applyPair
over that pair list. -/
theorem insert_pairing_direction_amended (bot freshId : Nat)
    (pre suf : List Msg) (t : Msg)
    (hb : t.author = bot)
    (hnd : ((pre ++ (t :: suf)).map Msg.id).Nodup)
    (hf : freshId ∉ (pre ++ (t :: suf)).map Msg.id) :
    insert_trace bot freshId (pre ++ (t :: suf)) t.id
        = (freshId :: (((botMsgs bot suf).map Msg.id).reverse ++ [t.id])).zip
            (((botMsgs bot suf).map Msg.id).reverse ++ [t.id])
      ∧ ∀ (ch0 : List Msg) (L : List Nat),
          shiftLoop ch0 L = (L.zip L.tail).foldlM applyPair ch0 := by
  obtain ⟨hcol, _, _, _, _⟩ := insert_message_master bot freshId pre suf t hb hnd hf
  constructor
  · simp only [insert_trace]
    rw [hcol]
    rfl
  · intro ch0 L
    exact shiftLoop_eq_foldlM L ch0

/-- Claim C2 amended witness at the concrete channel of the
counterexample. -/
theorem insert_pairing_direction_amended_case :
    ((⟨1, 5, "T", [], []⟩ : Msg).author = 5
      ∧ (([] ++ ((⟨1, 5, "T", [], []⟩ : Msg) :: [⟨3, 5, "C", [], []⟩])).map
          Msg.id).Nodup
      ∧ 9 ∉ (([] ++ ((⟨1, 5, "T", [], []⟩ : Msg)
          :: [⟨3, 5, "C", [], []⟩])).map Msg.id))
    ∧ (insert_trace 5 9
          ([] ++ ((⟨1, 5, "T", [], []⟩ : Msg) :: [⟨3, 5, "C", [], []⟩])) 1
        = (9 :: (((botMsgs 5 [⟨3, 5, "C", [], []⟩]).map Msg.id).reverse ++ [1])).zip
            (((botMsgs 5 [⟨3, 5, "C", [], []⟩]).map Msg.id).reverse ++ [1])
      ∧ ∀ (ch0 : List Msg) (L : List Nat),
          shiftLoop ch0 L = (L.zip L.tail).foldlM applyPair ch0) :=
  ⟨⟨rfl, by decide, by decide⟩,
    insert_pairing_direction_amended 5 9 [] [⟨3, 5, "C", [], []⟩]
      ⟨1, 5, "T", [], []⟩ rfl (by decide) (by decide)⟩

/-- Claim C3 counterexample. Channel with a single bot message (id 1),
which is therefore the newest automation-owned record; the placeholder
gets id 9. The claim says the collected id list has length one and no
shift edit of any other record occurs; the code collects two ids (the
appended placeholder and the target) and performs one shift edit, copying
the target state onto the placeholder. -/
theorem insert_newest_target_refuted :
    (collectBotIds 5 1
        (([(⟨1, 5, "T", [], []⟩ : Msg)] ++ [placeholderMsg 5 9]).reverse)).length = 2
      ∧ (collectBotIds 5 1
          (([(⟨1, 5, "T", [], []⟩ : Msg)] ++ [placeholderMsg 5 9]).reverse)).length ≠ 1
      ∧ insert_trace 5 9 [⟨1, 5, "T", [], []⟩] 1 = [(9, 1)]
      ∧ insert_trace 5 9 [⟨1, 5, "T", [], []⟩] 1 ≠ [] := by
  refine ⟨rfl, by decide, rfl, by decide⟩

/-- Claim C3 amended: when the target is the newest automation-owned
record (no bot-authored message after it), the collected id list has
length two, consisting of the appended placeholder id followed by the
target id; exactly one shift edit occurs, copying the target state onto
the placeholder; the target is then overwritten directly with the
inserted content and the automation-owned contents end with the inserted
content followed by the former target content. -/
theorem insert_newest_target_amended (bot freshId : Nat)
    (pre suf : List Msg) (t : Msg)
    (hb : t.author = bot)
    (hsufb : botMsgs bot suf = [])
    (hnd : ((pre ++ (t :: suf)).map Msg.id).Nodup)
    (hf : freshId ∉ (pre ++ (t :: suf)).map Msg.id) :
    collectBotIds bot t.id
        (((pre ++ (t :: suf)) ++ [placeholderMsg bot freshId]).reverse)
      = [freshId, t.id]
    ∧ insert_trace bot freshId (pre ++ (t :: suf)) t.id = [(freshId, t.id)]
    ∧ ∃ res, insert_message bot freshId (pre ++ (t :: suf)) t.id = some res
        ∧ botContents bot res = botContents bot pre ++ ["**[PH]**", t.content] := by
  obtain ⟨hcol, res, hrun, hbot, hids⟩ :=
    insert_message_master bot freshId pre suf t hb hnd hf
  rw [hsufb] at hcol hbot
  simp only [List.map_nil, List.reverse_nil, List.nil_append] at hcol hbot
  refine ⟨hcol, ?_, res, hrun, ?_⟩
  · simp only [insert_trace]
    rw [hcol]
    rfl
  · rw [botContents, hbot]
    simp [botContents, copyState, placeholderMsg]

/-- Claim C3 amended witness: single bot message channel. -/
theorem insert_newest_target_amended_case :
    ((⟨1, 5, "T", [], []⟩ : Msg).author = 5
      ∧ botMsgs 5 ([] : List Msg) = []
      ∧ (([] ++ ((⟨1, 5, "T", [], []⟩ : Msg) :: [])).map Msg.id).Nodup
      ∧ 9 ∉ (([] ++ ((⟨1, 5, "T", [], []⟩ : Msg) :: [])).map Msg.id))
    ∧ (collectBotIds 5 1
          ((([] ++ ((⟨1, 5, "T", [], []⟩ : Msg) :: []))
            ++ [placeholderMsg 5 9]).reverse) = [9, 1]
      ∧ insert_trace 5 9 ([] ++ ((⟨1, 5, "T", [], []⟩ : Msg) :: [])) 1 = [(9, 1)]
      ∧ ∃ res, insert_message 5 9 ([] ++ ((⟨1, 5, "T", [], []⟩ : Msg) :: [])) 1
            = some res
          ∧ botContents 5 res = botContents 5 [] ++ ["**[PH]**", "T"]) :=
  ⟨⟨rfl, rfl, by decide, by decide⟩,
    insert_newest_target_amended 5 9 [] [] ⟨1, 5, "T", [], []⟩ rfl rfl
      (by decide) (by decide)⟩

theorem saveAttachments_foldl (filename : String) (atts : List String) :
    ∀ (acc1 : List String) (disk : List (String × String)),
      atts.foldl
        (fun acc a =>
          let imgId : Nat := 0
          let path := filename ++ "/" ++ toString imgId ++ ".png"
          (acc.1 ++ [path], (path, a) :: acc.2))
        (acc1, disk)
      = (acc1 ++ atts.map fun _ => filename ++ "/" ++ toString (0 : Nat) ++ ".png",
          (atts.map fun a =>
            (filename ++ "/" ++ toString (0 : Nat) ++ ".png", a)).reverse ++ disk) := by
  induction atts with
  | nil => intro acc1 disk; simp
  | cons a rest ih =>
    intro acc1 disk
    simp only [List.foldl_cons]
    rw [ih]
    simp

theorem saveAttachments_spec (filename : String) (atts : List String)
    (disk : List (String × String)) :
    saveAttachments filename atts disk
      = (atts.map fun _ => filename ++ "/" ++ toString (0 : Nat) ++ ".png",
          (atts.map fun a =>
            (filename ++ "/" ++ toString (0 : Nat) ++ ".png", a)).reverse ++ disk) := by
  have h := saveAttachments_foldl filename atts [] disk
  simpa [saveAttachments] using h

theorem save_messages_foldl (dee : String → String) (filename : String)
    (ch : List Msg) :
    ∀ (es : List SaveEntry) (disk : List (String × String)),
      ch.foldl
        (fun acc m =>
          let saved := saveAttachments filename m.attachments acc.2
          (acc.1 ++ [SaveEntry.record (dee m.content) saved.1
            (m.embeds.map Embed.description)], saved.2))
        (es, disk)
      = (es ++ ch.map (savedRecord dee filename),
          (ch.map fun m => (m.attachments.map fun a =>
            (filename ++ "/" ++ toString (0 : Nat) ++ ".png", a)).reverse).reverse.flatten
            ++ disk) := by
  induction ch with
  | nil => intro es disk; simp
  | cons m rest ih =>
    intro es disk
    simp only [List.foldl_cons, saveAttachments_spec]
    simp only [saveAttachments_spec] at ih
    rw [ih]
    simp [savedRecord, List.append_assoc]

theorem save_messages_spec (dee : String → String) (chnName : String)
    (chnId : Nat) (filename : String) (ch : List Msg) :
    save_messages dee chnName chnId filename ch
      = (SaveEntry.header chnName chnId :: ch.map (savedRecord dee filename),
          (ch.map fun m => (m.attachments.map fun a =>
            (filename ++ "/" ++ toString (0 : Nat) ++ ".png", a)).reverse).reverse.flatten) := by
  have h := save_messages_foldl dee filename ch [SaveEntry.header chnName chnId] []
  simpa [save_messages] using h

theorem mapM_diskRead_const (disk : List (String × String)) (pt v : String)
    (h : diskRead disk pt = some v) (atts : List String) :
    (atts.map fun _ => pt).mapM (diskRead disk) = some (atts.map fun _ => v) := by
  induction atts with
  | nil => rfl
  | cons a rest ih =>
    simp only [List.map_cons, List.mapM_cons, h, ih]
    rfl

theorem publishEntries_spec (emo dee : String → String) (filename : String)
    (disk : List (String × String)) :
    ∀ ch : List Msg,
      (∀ m ∈ ch, m.attachments ≠ [] →
        (diskRead disk (filename ++ "/" ++ toString (0 : Nat) ++ ".png")).isSome) →
      ∃ recs, publishEntries emo disk (ch.map (savedRecord dee filename)) = some recs
        ∧ recs.map PubRec.content = ch.map (fun m => emo (dee m.content))
        ∧ recs.map PubRec.embeds = ch.map (fun m => m.embeds.map Embed.description)
        ∧ recs.map (fun r => r.files.length)
            = ch.map (fun m => m.attachments.length) := by
  intro ch
  induction ch with
  | nil => intro _; exact ⟨[], rfl, rfl, rfl, rfl⟩
  | cons m rest ih =>
    intro hdisk
    obtain ⟨recs, hrecs, hc, he, hl⟩ := ih fun x hx hne =>
      hdisk x (List.mem_cons_of_mem m hx) hne
    by_cases hatts : m.attachments = []
    · refine ⟨⟨emo (dee m.content), [], m.embeds.map Embed.description⟩ :: recs,
          ?_, ?_, ?_, ?_⟩
      · simp only [List.map_cons, savedRecord, publishEntries, hatts]
        simp [hrecs]
        rfl
      · simp [hc]
      · simp [he]
      · simp [hl, hatts]
    · have hsome := hdisk m (List.mem_cons_self m rest) hatts
      obtain ⟨v, hv⟩ := Option.isSome_iff_exists.mp hsome
      refine ⟨⟨emo (dee m.content), m.attachments.map fun _ => v,
            m.embeds.map Embed.description⟩ :: recs, ?_, ?_, ?_, ?_⟩
      · simp only [List.map_cons, savedRecord, publishEntries]
        rw [mapM_diskRead_const disk _ v hv m.attachments, hrecs]
      · simp [hc]
      · simp [he]
      · simp [hl]

/-- Claim C7 (code_bug evaluation). A record with two attachments, bytes
"aa" then "bb": the export writes both to <filename>/0.png, records the
path 0.png twice (the claim prescribes 0.png then 1.png), never writes
1.png, and leaves the directory file holding the bytes of the second
attachment only. -/
theorem save_messages_attachment_numbering_bug :
    (save_messages (fun s => s) "chan" 1 "f" [⟨1, 5, "x", ["aa", "bb"], []⟩]).1
        = [SaveEntry.header "chan" 1,
            SaveEntry.record "x" ["f/0.png", "f/0.png"] []]
      ∧ diskRead (save_messages (fun s => s) "chan" 1 "f"
          [⟨1, 5, "x", ["aa", "bb"], []⟩]).2 "f/0.png" = some "bb"
      ∧ diskRead (save_messages (fun s => s) "chan" 1 "f"
          [⟨1, 5, "x", ["aa", "bb"], []⟩]).2 "f/1.png" = none
      ∧ (["f/0.png", "f/0.png"] : List String) ≠ ["f/0.png", "f/1.png"] :=
  ⟨rfl, rfl, rfl, by decide⟩

/-- Claim C8 counterexample. One record with two attachments "aa" and
"bb": export then import yields the record with both attachment contents
equal to "bb" (both image paths collide on 0.png, whose final bytes are
those of the last written attachment), so the attachments are not
content-equal to the originals. -/
theorem export_import_round_trip_refuted :
    publish (fun s => s)
        (save_messages (fun s => s) "chan" 1 "f"
          [⟨1, 5, "hello", ["aa", "bb"], []⟩]).2
        (save_messages (fun s => s) "chan" 1 "f"
          [⟨1, 5, "hello", ["aa", "bb"], []⟩]).1
      = some [{ content := "hello", files := ["bb", "bb"], embeds := [] }]
    ∧ (["bb", "bb"] : List String) ≠ ["aa", "bb"] :=
  ⟨rfl, by decide⟩

/-- Claim C8 amended: export produces exactly one record entry per channel
record after the header, and importing the bundle sends one record per
entry whose contents equal the original contents in the same order
(provided the emoji-restoration filter inverts the emoji-stripping filter
on the record contents), with embed descriptions content-equal and
per-record attachment counts equal; attachment bytes are not preserved in
general, since every attachment is written to the same 0.png path. -/
theorem export_import_round_trip_amended (dee emo : String → String)
    (chnName : String) (chnId : Nat) (filename : String) (ch : List Msg)
    (hinv : ∀ m ∈ ch, emo (dee m.content) = m.content) :
    (save_messages dee chnName chnId filename ch).1.length = ch.length + 1
    ∧ ∃ recs,
        publish emo (save_messages dee chnName chnId filename ch).2
            (save_messages dee chnName chnId filename ch).1 = some recs
        ∧ recs.map PubRec.content = ch.map Msg.content
        ∧ recs.map PubRec.embeds = ch.map (fun m => m.embeds.map Embed.description)
        ∧ recs.map (fun r => r.files.length)
            = ch.map (fun m => m.attachments.length) := by
  rw [save_messages_spec]
  constructor
  · simp
  · have hdisk : ∀ m ∈ ch, m.attachments ≠ [] →
        (diskRead ((ch.map fun m => (m.attachments.map fun a =>
            (filename ++ "/" ++ toString (0 : Nat) ++ ".png", a)).reverse).reverse.flatten)
          (filename ++ "/" ++ toString (0 : Nat) ++ ".png")).isSome := by
      intro m hm hne
      obtain ⟨a, ha⟩ := List.exists_mem_of_ne_nil m.attachments hne
      have hmem : (filename ++ "/" ++ toString (0 : Nat) ++ ".png", a)
          ∈ (ch.map fun m => (m.attachments.map fun a =>
              (filename ++ "/" ++ toString (0 : Nat) ++ ".png", a)).reverse).reverse.flatten := by
        rw [List.mem_flatten]
        refine ⟨(m.attachments.map fun a =>
          (filename ++ "/" ++ toString (0 : Nat) ++ ".png", a)).reverse, ?_, ?_⟩
        · rw [List.mem_reverse]
          exact List.mem_map_of_mem _ hm
        · rw [List.mem_reverse]
          exact List.mem_map_of_mem _ ha
      rw [diskRead, Option.isSome_map']
      rw [List.find?_isSome]
      exact ⟨_, hmem, by simp⟩
    obtain ⟨recs, hrecs, hc, he, hl⟩ :=
      publishEntries_spec emo dee filename _ ch hdisk
    refine ⟨recs, ?_, ?_, he, hl⟩
    · simpa [publish] using hrecs
    · rw [hc]
      exact List.map_congr_left hinv

/-- Claim C8 amended witness: a two-record channel with an attachment and
an embed, with the identity emoji filters. -/
theorem export_import_round_trip_amended_case :
    (∀ m ∈ ([⟨1, 5, "hi", ["aa"], [⟨none, "d"⟩]⟩, ⟨2, 7, "yo", [], []⟩] : List Msg),
        (fun s => s) ((fun s => s) m.content) = m.content)
    ∧ ((save_messages (fun s => s) "chan" 1 "f"
          [⟨1, 5, "hi", ["aa"], [⟨none, "d"⟩]⟩, ⟨2, 7, "yo", [], []⟩]).1.length
        = ([⟨1, 5, "hi", ["aa"], [⟨none, "d"⟩]⟩, ⟨2, 7, "yo", [], []⟩] : List Msg).length + 1
      ∧ ∃ recs,
          publish (fun s => s)
              (save_messages (fun s => s) "chan" 1 "f"
                [⟨1, 5, "hi", ["aa"], [⟨none, "d"⟩]⟩, ⟨2, 7, "yo", [], []⟩]).2
              (save_messages (fun s => s) "chan" 1 "f"
                [⟨1, 5, "hi", ["aa"], [⟨none, "d"⟩]⟩, ⟨2, 7, "yo", [], []⟩]).1
            = some recs
          ∧ recs.map PubRec.content
              = ([⟨1, 5, "hi", ["aa"], [⟨none, "d"⟩]⟩, ⟨2, 7, "yo", [], []⟩] : List Msg).map Msg.content
          ∧ recs.map PubRec.embeds
              = ([⟨1, 5, "hi", ["aa"], [⟨none, "d"⟩]⟩, ⟨2, 7, "yo", [], []⟩] : List Msg).map
                  (fun m => m.embeds.map Embed.description)
          ∧ recs.map (fun r => r.files.length)
              = ([⟨1, 5, "hi", ["aa"], [⟨none, "d"⟩]⟩, ⟨2, 7, "yo", [], []⟩] : List Msg).map
                  (fun m => m.attachments.length)) :=
  ⟨fun _ _ => rfl,
    export_import_round_trip_amended (fun s => s) (fun s => s) "chan" 1 "f"
      [⟨1, 5, "hi", ["aa"], [⟨none, "d"⟩]⟩, ⟨2, 7, "yo", [], []⟩]
      (fun _ _ => rfl)⟩

/-- Claim C10 (confirmed). When bot.get_user does not resolve the id, the
rejection branch of dump_messages dereferences the absent user to format
its own message and raises; the rejection is never delivered and no
channel message is forwarded. -/
theorem dump_messages_none_user_crash (users : Nat → Option User)
    (deemojify : String → String) (uid : Nat) (history : List Msg)
    (h : users uid = none) :
    dump_messages users deemojify uid history = Except.error "AttributeError" := by
  simp [dump_messages, h, userNameAttr]

/-- Claim C10 witness: a user table that resolves no id. -/
theorem dump_messages_none_user_crash_case :
    ((fun _ : Nat => (none : Option User)) 3 = none)
    ∧ dump_messages (fun _ => none) (fun s => s) 3 [⟨1, 5, "x", [], []⟩]
        = Except.error "AttributeError" :=
  ⟨rfl, dump_messages_none_user_crash (fun _ => none) (fun s => s) 3
    [⟨1, 5, "x", [], []⟩] rfl⟩

theorem republishPayload_cases (emojify : String → String) (bot : Nat)
    (cur : List Msg) (m : Msg) :
    republishSendSpec emojify bot m (republishPayload emojify bot cur m) := by
  refine ⟨?_, ?_, ?_, ?_⟩
  · intro hc hb
    simp [republishPayload, hc, hb]
  · intro hc hb
    simp [republishPayload, hc, hb]
  · intro hc hhead
    cases hm : m.embeds with
    | nil => rw [hm] at hhead; simp at hhead
    | cons e0 rest =>
      rw [hm] at hhead
      simp only [List.head?_cons, Option.map_some'] at hhead
      have ht : e0.title = some "Содержание" := Option.some.inj hhead
      simp [republishPayload, hc, hm, ht]
  · intro hc hhead
    cases hm : m.embeds with
    | nil => simp [republishPayload, hc, hm]
    | cons e0 rest =>
      rw [hm] at hhead
      have ht : ¬ e0.title = some "Содержание" := by simpa using hhead
      simp [republishPayload, hc, hm, ht]

theorem republishLoop_spec (emojify : String → String) (bot : Nat) :
    ∀ (orig cur : List Msg) (nid : Nat),
      (republishLoop emojify bot orig cur nid).1
          = (List.zipWith
              (fun m p => [ChannelEffect.send p, ChannelEffect.delete m.id])
              orig (republishSends emojify bot orig cur nid)).flatten
      ∧ (republishSends emojify bot orig cur nid).length = orig.length
      ∧ List.Forall₂ (republishSendSpec emojify bot) orig
          (republishSends emojify bot orig cur nid) := by
  intro orig
  induction orig with
  | nil => intro cur nid; exact ⟨rfl, rfl, List.Forall₂.nil⟩
  | cons m rest ih =>
    intro cur nid
    obtain ⟨h1, h2, h3⟩ := ih
      ((cur ++ [(⟨nid, bot, (republishPayload emojify bot cur m).content,
          (republishPayload emojify bot cur m).files,
          (republishPayload emojify bot cur m).embeds⟩ : Msg)]).filter
        fun x => x.id != m.id) (nid + 1)
    refine ⟨?_, ?_, ?_⟩
    · simp only [republishLoop, republishSends, List.zipWith_cons_cons,
        List.flatten_cons]
      rw [h1]
      rfl
    · simp only [republishSends, List.length_cons]
      rw [h2]
    · simp only [republishSends]
      exact List.Forall₂.cons (republishPayload_cases emojify bot cur m) h3

/-- Claim C9 counterexample. A record with no text whose embeds are
titled "Other" and then "Содержание": it carries an embed titled with the
table-of-contents marker, yet the code checks only the first embed, so
the record is replaced by the minimal placeholder (a send with no embeds)
rather than a regenerated table of contents, and then deleted. -/
theorem republish_toc_first_embed_refuted :
    (republish (fun s => s) 5
        [⟨1, 7, "", [], [⟨some "Other", "d"⟩, ⟨some "Содержание", "e"⟩]⟩] 10).1
      = [ChannelEffect.send { content := "*** ***", files := [], embeds := [], suppress := false },
          ChannelEffect.delete 1]
    ∧ (⟨some "Содержание", "e"⟩ : Embed)
        ∈ ([⟨some "Other", "d"⟩, ⟨some "Содержание", "e"⟩] : List Embed)
    ∧ (({ content := "*** ***", files := [], embeds := [], suppress := false } : SendPayload).embeds.map
        Embed.title) ≠ [some "Содержание"] :=
  ⟨rfl, by decide, by decide⟩

/-- Claim C9 amended: iterating oldest first over the snapshot of the
channel, every record is replaced by exactly one freshly sent record and
the original is deleted unconditionally right after its replacement is
sent (the effect trace is the concatenation, record by record, of one
send followed by the matching delete); the send is verbatim for
bot-authored records with text, emoji-filtered for foreign records with
text, a regenerated embed titled "Содержание" when the record has no text
and its FIRST embed is titled "Содержание", and the minimal non-empty
placeholder otherwise. -/
theorem republish_replacement_amended (emojify : String → String)
    (bot nid : Nat) (ch : List Msg) :
    (republish emojify bot ch nid).1
        = (List.zipWith
            (fun m p => [ChannelEffect.send p, ChannelEffect.delete m.id])
            ch (republishSends emojify bot ch ch nid)).flatten
      ∧ (republishSends emojify bot ch ch nid).length = ch.length
      ∧ List.Forall₂ (republishSendSpec emojify bot) ch
          (republishSends emojify bot ch ch nid) :=
  republishLoop_spec emojify bot ch ch nid

/-- Claim C9 amended witness at a channel exercising all four kinds of
record: a bot record with text, a foreign record with text, an empty
record whose first embed is the Table of Contents, and a bare empty
record. -/
theorem republish_replacement_amended_case :
    List.Forall₂ (republishSendSpec (fun s => s) 5)
      ([⟨1, 5, "own", [], []⟩, ⟨2, 7, "other", [], []⟩,
        ⟨3, 5, "", [], [⟨some "Содержание", "d"⟩]⟩,
        ⟨4, 7, "", [], []⟩] : List Msg)
      (republishSends (fun s => s) 5
        ([⟨1, 5, "own", [], []⟩, ⟨2, 7, "other", [], []⟩,
          ⟨3, 5, "", [], [⟨some "Содержание", "d"⟩]⟩,
          ⟨4, 7, "", [], []⟩] : List Msg)
        ([⟨1, 5, "own", [], []⟩, ⟨2, 7, "other", [], []⟩,
          ⟨3, 5, "", [], [⟨some "Содержание", "d"⟩]⟩,
          ⟨4, 7, "", [], []⟩] : List Msg)
        10) :=
  (republish_replacement_amended (fun s => s) 5 10
    [⟨1, 5, "own", [], []⟩, ⟨2, 7, "other", [], []⟩,
      ⟨3, 5, "", [], [⟨some "Содержание", "d"⟩]⟩, ⟨4, 7, "", [], []⟩]).2.2

theorem eatLit_append (p : List Char) : ∀ s r : List Char,
    eatLit p s = some r → s = p ++ r := by
  induction p with
  | nil =>
    intro s r h
    simp only [eatLit, Option.some.injEq] at h
    simp [h]
  | cons x ps ih =>
    intro s r h
    cases s with
    | nil => simp [eatLit] at h
    | cons c cs =>
      simp only [eatLit] at h
      by_cases hc : c = x
      · rw [if_pos hc] at h
        rw [List.cons_append, ← ih cs r h, hc]
      · rw [if_neg hc] at h; cases h

theorem urlHead_append (s h r : List Char) (hu : urlHead s = some (h, r)) :
    s = h ++ r ∧ h ≠ [] := by
  unfold urlHead at hu
  cases h1 : eatLit "https://www.wowhead.com/".data s with
  | some rest =>
    rw [h1] at hu
    rw [Option.some.injEq, Prod.mk.injEq] at hu
    obtain ⟨hh, hr⟩ := hu
    subst hh; subst hr
    exact ⟨eatLit_append _ s rest h1, by decide⟩
  | none =>
    rw [h1] at hu
    cases h2 : eatLit "https://wowhead.com/".data s with
    | some rest =>
      rw [h2] at hu
      rw [Option.some.injEq, Prod.mk.injEq] at hu
      obtain ⟨hh, hr⟩ := hu
      subst hh; subst hr
      exact ⟨eatLit_append _ s rest h2, by decide⟩
    | none => rw [h2] at hu; cases hu

theorem unfixedAt_append (s m d r : List Char)
    (h : unfixedAt s = some (m, d, r)) : s = m ++ r ∧ m ≠ [] := by
  unfold unfixedAt at h
  cases hu : urlHead s with
  | none => rw [hu] at h; cases h
  | some pr =>
    obtain ⟨head, afterHead⟩ := pr
    rw [hu] at h
    simp only at h
    cases hl : lastItemId (afterHead.takeWhile isBareChar) with
    | none => rw [hl] at h; cases h
    | some d0 =>
      rw [hl] at h
      rw [Option.some.injEq, Prod.mk.injEq, Prod.mk.injEq] at h
      obtain ⟨hm, _, hr⟩ := h
      obtain ⟨hs, hne⟩ := urlHead_append s head afterHead hu
      subst hm; subst hr
      constructor
      · rw [hs, List.append_assoc, List.takeWhile_append_dropWhile]
      · intro hcon
        rw [List.append_eq_nil] at hcon
        exact hne hcon.1

theorem fixedUrl_append (s u r : List Char)
    (h : fixedUrl s = some (u, r)) : s = u ++ r := by
  unfold fixedUrl at h
  cases hu : urlHead s with
  | none => rw [hu] at h; cases h
  | some pr =>
    obtain ⟨head, afterHead⟩ := pr
    rw [hu] at h
    simp only at h
    obtain ⟨hs, _⟩ := urlHead_append s head afterHead hu
    split at h
    · next rest heq =>
      split at h
      · rw [Option.some.injEq, Prod.mk.injEq] at h
        obtain ⟨hu2, hr⟩ := h
        subst hu2; subst hr
        rw [hs]
        conv_lhs => rw [← List.takeWhile_append_dropWhile
          (p := fun c => c != ')') (l := afterHead)]
        rw [heq]
        simp
      · cases h
    · cases h

theorem fixedTail_append : ∀ (s tl r : List Char),
    fixedTail s = some (tl, r) → s = tl ++ r := by
  intro s
  induction s with
  | nil => intro tl r h; simp [fixedTail] at h
  | cons c cs ih =>
    intro tl r h
    simp only [fixedTail] at h
    split at h
    · next r0 heq =>
      rw [Option.some.injEq] at h
      subst h
      split at heq
      · next s2 =>
        split at heq
        · next url rest hfu =>
          rw [Option.some.injEq, Prod.mk.injEq] at heq
          obtain ⟨htl, hr⟩ := heq
          subst htl; subst hr
          have := fixedUrl_append s2 url rest hfu
          simp [this]
        · cases heq
      · cases heq
    · split at h
      · cases h
      · split at h
        · next tl0 r0 hft =>
          rw [Option.some.injEq, Prod.mk.injEq] at h
          obtain ⟨htl, hr⟩ := h
          subst htl; subst hr
          rw [List.cons_append, ← ih tl0 r0 hft]
        · cases h

theorem fixedAt_append (s m r : List Char)
    (h : fixedAt s = some (m, r)) : s = m ++ r ∧ m ≠ [] := by
  cases s with
  | nil => simp [fixedAt] at h
  | cons c cs =>
    by_cases hc : c = '['
    · subst hc
      simp only [fixedAt] at h
      split at h
      · next tl rest hft =>
        rw [Option.some.injEq, Prod.mk.injEq] at h
        obtain ⟨hm, hr⟩ := h
        subst hm; subst hr
        exact ⟨by rw [List.cons_append, ← fixedTail_append cs tl rest hft],
          by simp⟩
      · cases h
    · rw [show fixedAt (c :: cs) = none from ?_] at h
      · cases h
      · unfold fixedAt
        split
        · next heqs =>
          exfalso
          rw [List.cons.injEq] at heqs
          exact hc heqs.1
        · rfl

theorem join_consChunk (c : Char) (ps : List (Bool × List Char)) :
    joinPieces (consChunk c ps) = c :: joinPieces ps := by
  cases ps with
  | nil => rfl
  | cons p ps2 =>
    obtain ⟨tag, t⟩ := p
    cases tag <;> simp [consChunk, joinPieces]

theorem fixedPieces_join (fuel : Nat) : ∀ s : List Char,
    joinPieces (fixedPieces fuel s) = s := by
  induction fuel with
  | zero =>
    intro s
    cases s with
    | nil => rfl
    | cons c cs => simp [fixedPieces, joinPieces]
  | succ fuel ih =>
    intro s
    cases s with
    | nil => rfl
    | cons c cs =>
      simp only [fixedPieces]
      cases hfa : fixedAt (c :: cs) with
      | some pr =>
        obtain ⟨m, rest⟩ := pr
        obtain ⟨hs, _⟩ := fixedAt_append (c :: cs) m rest hfa
        simp [joinPieces] at ih ⊢
        rw [ih rest, ← hs]
      | none =>
        rw [join_consChunk, ih cs]

theorem join_consUChunk (c : Char) (ps : List (Option (List Char) × List Char)) :
    joinPieces (consUChunk c ps) = c :: joinPieces ps := by
  cases ps with
  | nil => rfl
  | cons p ps2 =>
    obtain ⟨tag, t⟩ := p
    cases tag <;> simp [consUChunk, joinPieces]

theorem unfixedPieces_join (fuel : Nat) : ∀ s : List Char,
    joinPieces (unfixedPieces fuel s) = s := by
  induction fuel with
  | zero =>
    intro s
    cases s with
    | nil => rfl
    | cons c cs => simp [unfixedPieces, joinPieces]
  | succ fuel ih =>
    intro s
    cases s with
    | nil => rfl
    | cons c cs =>
      simp only [unfixedPieces]
      cases hfa : unfixedAt (c :: cs) with
      | some pr =>
        obtain ⟨m, d, rest⟩ := pr
        obtain ⟨hs, _⟩ := unfixedAt_append (c :: cs) m d rest hfa
        simp [joinPieces] at ih ⊢
        rw [ih rest, ← hs]
      | none =>
        rw [join_consUChunk, ih cs]

theorem renderU_consUChunk (names : List Char → Option (List Char)) (c : Char)
    (ps : List (Option (List Char) × List Char)) :
    ((consUChunk c ps).map (renderUPiece names)).flatten
      = c :: (ps.map (renderUPiece names)).flatten := by
  cases ps with
  | nil => rfl
  | cons p ps2 =>
    obtain ⟨tag, t⟩ := p
    cases tag <;> simp [consUChunk, renderUPiece]

theorem subUnfixed_pieces (names : List Char → Option (List Char))
    (fuel : Nat) : ∀ s : List Char,
    subUnfixed names fuel s
      = ((unfixedPieces fuel s).map (renderUPiece names)).flatten := by
  induction fuel with
  | zero =>
    intro s
    cases s with
    | nil => rfl
    | cons c cs => simp [subUnfixed, unfixedPieces, renderUPiece]
  | succ fuel ih =>
    intro s
    cases s with
    | nil => rfl
    | cons c cs =>
      simp only [subUnfixed, unfixedPieces]
      cases hfa : unfixedAt (c :: cs) with
      | some pr =>
        obtain ⟨m, d, rest⟩ := pr
        cases hn : names d <;>
          simp [renderUPiece, hn, ih rest]
      | none =>
        rw [renderU_consUChunk, ← ih cs]

theorem subUnfixed_nochange (names : List Char → Option (List Char))
    (hnone : ∀ d, names d = none) (fuel : Nat) : ∀ s : List Char,
    subUnfixed names fuel s = s := by
  induction fuel with
  | zero =>
    intro s
    cases s with
    | nil => rfl
    | cons c cs => rfl
  | succ fuel ih =>
    intro s
    cases s with
    | nil => rfl
    | cons c cs =>
      simp only [subUnfixed]
      cases hfa : unfixedAt (c :: cs) with
      | some pr =>
        obtain ⟨m, d, rest⟩ := pr
        obtain ⟨hs, _⟩ := unfixedAt_append (c :: cs) m d rest hfa
        simp only [hnone d]
        rw [ih rest, ← hs]
      | none =>
        rw [ih cs]

/-- Claim C4 counterexample. With the fixed resolution result mapping id
7 to the name holding a newline, enriching the bare link once produces a
display link whose bracket segment the display-link pattern can no longer
match (the dot does not cross a newline); the second application
therefore collects id 7 again and rewrites the canonical url inside the
produced link, so enriching twice differs from enriching once. -/
theorem fix_item_links_idempotence_refuted :
    (fix_item_links true "tok"
        (fun d => if d = "7".data then some ("A\nB").data else none)
        "https://wowhead.com/item=7".data).1
      = Except.ok "[A\nB](https://www.wowhead.com/ru/item=7)".data
    ∧ (fix_item_links true "tok"
        (fun d => if d = "7".data then some ("A\nB").data else none)
        "[A\nB](https://www.wowhead.com/ru/item=7)".data).1
      = Except.ok "[A\nB]([A\nB](https://www.wowhead.com/ru/item=7))".data
    ∧ "[A\nB]([A\nB](https://www.wowhead.com/ru/item=7))".data
      ≠ "[A\nB](https://www.wowhead.com/ru/item=7)".data :=
  ⟨rfl, rfl, by decide⟩

/-- Claim C4 amended: a text whose catalog links are all already in
display-link form collects no ids, is returned unchanged and causes no
network call; and re-applying the rewrite returns a text unchanged
whenever every id collected from it resolves to no name, which holds for
the output of a successful enrichment unless the resolution results
contain pattern-breaking names (the counterexample names hold a newline);
the unconditional twice-equals-once claim fails for such names. -/
theorem fix_item_links_idempotence_amended (ok2xx : Bool) (tok : String)
    (names : List Char → Option (List Char)) :
    (∀ s : List Char, collectLinkIds s = [] →
      fix_item_links ok2xx tok names s = (Except.ok s, []))
    ∧ (∀ v : List Char, (∀ d ∈ collectLinkIds v, names d = none) →
        (fix_item_links true tok names v).1 = Except.ok v) := by
  constructor
  · intro s hs
    simp [fix_item_links, hs]
  · intro v hv
    by_cases hids : collectLinkIds v = []
    · simp [fix_item_links, hids]
    · have hnone : ∀ d, (if d ∈ collectLinkIds v then names d else none) = none := by
        intro d
        by_cases hd : d ∈ collectLinkIds v
        · simp [hd, hv d hd]
        · simp [hd]
      have hrepl : replaceUnfixed
          (fun d => if d ∈ collectLinkIds v then names d else none) v = v := by
        simp only [replaceUnfixed]
        have hmap : ((fixedPieces v.length v).map fun p =>
            if p.1 then p.2
            else subUnfixed
              (fun d => if d ∈ collectLinkIds v then names d else none)
              p.2.length p.2)
            = (fixedPieces v.length v).map Prod.snd := by
          apply List.map_congr_left
          intro p _
          by_cases hp : p.1 <;>
            simp [hp, subUnfixed_nochange _ hnone]
        rw [hmap]
        have := fixedPieces_join v.length v
        simpa [joinPieces] using this
      simp [fix_item_links, hids, get_blizzard_token, hrepl]

/-- Claim C4 amended witness: a contentless text, and a text whose only
display link carries the one resolvable id while its bare link id 8
resolves to nothing. -/
theorem fix_item_links_idempotence_amended_case :
    (collectLinkIds "no links here".data = []
      ∧ fix_item_links true "tok"
          (fun d => if d = "7".data then some "X".data else none)
          "no links here".data
        = (Except.ok "no links here".data, []))
    ∧ ((∀ d ∈ collectLinkIds
          "[A](https://www.wowhead.com/ru/item=7) https://wowhead.com/item=8".data,
          (fun d => if d = "7".data then some "X".data else none) d = none)
      ∧ (fix_item_links true "tok"
          (fun d => if d = "7".data then some "X".data else none)
          "[A](https://www.wowhead.com/ru/item=7) https://wowhead.com/item=8".data).1
        = Except.ok
            "[A](https://www.wowhead.com/ru/item=7) https://wowhead.com/item=8".data) :=
  ⟨⟨by decide,
      (fix_item_links_idempotence_amended true "tok"
        (fun d => if d = "7".data then some "X".data else none)).1
        "no links here".data (by decide)⟩,
    ⟨by decide,
      (fix_item_links_idempotence_amended true "tok"
        (fun d => if d = "7".data then some "X".data else none)).2
        "[A](https://www.wowhead.com/ru/item=7) https://wowhead.com/item=8".data
        (by decide)⟩⟩

/-- Claim C5 (confirmed). Span partition of the rewrite: the display-link
scan splits every input into spans and chunks whose concatenation is the
input; replace_unfixed renders every span verbatim and every chunk by the
bare-link scan of that chunk, where a bare link with a resolved id
becomes the display-link pair, an unresolved bare link and plain text
stay verbatim, and the bare-link split also concatenates back to its
chunk; in particular, for a text with one already-resolved link on id 5
and one bare link on id 7 (both resolvable), only the bare link is
rewritten and the resolved span is byte-identical. -/
theorem replace_unfixed_span_partition
    (names : List Char → Option (List Char)) (s : List Char) :
    joinPieces (fixedPieces s.length s) = s
    ∧ replaceUnfixed names s
        = ((fixedPieces s.length s).map fun p =>
            if p.1 then p.2
            else ((unfixedPieces p.2.length p.2).map (renderUPiece names)).flatten).flatten
    ∧ (∀ t : List Char, joinPieces (unfixedPieces t.length t) = t)
    ∧ replaceUnfixed
        (fun d => if d = "7".data then some "Имя".data
          else if d = "5".data then some "Др".data else none)
        "[Уже](https://www.wowhead.com/ru/item=5) and https://wowhead.com/item=7".data
      = "[Уже](https://www.wowhead.com/ru/item=5) and [Имя](https://www.wowhead.com/ru/item=7)".data := by
  refine ⟨fixedPieces_join s.length s, ?_, fun t => unfixedPieces_join t.length t, by rfl⟩
  simp only [replaceUnfixed]
  congr 1
  apply List.map_congr_left
  intro p _
  by_cases hp : p.1 <;> simp [hp, subUnfixed_pieces]

/-- Claim C6 (confirmed). A content with no bare catalog-link ids is
returned unchanged with no network call; a content with ids under a
non-2xx token response aborts with the raised error after the token call
only, before any per-id lookup, leaving the content unmodified. -/
theorem fix_item_links_failure_propagation (ok2xx : Bool) (tok : String)
    (names : List Char → Option (List Char)) (content : List Char) :
    (collectLinkIds content = [] →
      fix_item_links ok2xx tok names content = (Except.ok content, []))
    ∧ (collectLinkIds content ≠ [] →
      fix_item_links false tok names content
        = (Except.error "HTTPError", [NetCall.token])) := by
  constructor
  · intro h
    simp [fix_item_links, h]
  · intro h
    simp [fix_item_links, h, get_blizzard_token]

/-- Claim C6 witness: a plain text with no ids, and a text with a bare
link under a failing token exchange. -/
theorem fix_item_links_failure_propagation_case :
    (collectLinkIds "just text".data = []
      ∧ fix_item_links true "tok" (fun _ => none) "just text".data
          = (Except.ok "just text".data, []))
    ∧ (collectLinkIds "see https://wowhead.com/item=7".data ≠ []
      ∧ fix_item_links false "tok" (fun _ => none)
          "see https://wowhead.com/item=7".data
        = (Except.error "HTTPError", [NetCall.token])) :=
  ⟨⟨by decide,
      (fix_item_links_failure_propagation true "tok" (fun _ => none)
        "just text".data).1 (by decide)⟩,
    ⟨by decide,
      (fix_item_links_failure_propagation false "tok" (fun _ => none)
        "see https://wowhead.com/item=7".data).2 (by decide)⟩⟩

end FaqBot
